import Mathlib

/-!
Verification of the UniConv encoding-conversion engine specification.

The repository contains only fixture generators; the engine itself
(BOM sniffer, heuristic detector, decoder, encoder, conversion pipeline)
is described by the specification.  Every definition below is therefore
modelled from the spec, faithful to its words, and the theorems settle
the spec claims against that model.
-/

namespace UniConv

/-- Modelled from the spec: a Unicode scalar value is a code point below
0x110000 that is not a surrogate (no lone surrogates in CanonicalText). -/
def ValidScalar (c : Nat) : Prop := c < 0x110000 ∧ ¬(0xD800 ≤ c ∧ c < 0xE000)

instance (c : Nat) : Decidable (ValidScalar c) := by
  unfold ValidScalar; infer_instance

/-- Modelled from the spec: a ByteBuffer is an ordered sequence of bytes;
each element is an 8-bit value. -/
def IsByteBuffer (bs : List Nat) : Prop := ∀ b ∈ bs, b < 256

/-- Prepend one decoded scalar to a decode result (text, substitution count). -/
def consChar (c : Nat) (r : List Nat × Nat) : List Nat × Nat := (c :: r.1, r.2)

/-- Record one U+FFFD substitution in front of a decode result. -/
def consSub (r : List Nat × Nat) : List Nat × Nat := (0xFFFD :: r.1, r.2 + 1)

/-- Is the byte a UTF-8 continuation byte (0x80..0xBF)? -/
def isCont (b : Nat) : Bool := 0x80 ≤ b && b < 0xC0

/-- Modelled from the spec: UTF-8 decoder.  Standard variable-length decode;
an invalid sequence produces one U+FFFD per maximal invalid subsequence
(resuming at the offending byte, never skipping byte-by-byte) and
increments the substitution counter.  Always total, never fatal. -/
def decodeUtf8 : List Nat → List Nat × Nat
  | [] => ([], 0)
  | b1 :: rest =>
    if b1 < 0x80 then consChar b1 (decodeUtf8 rest)
    else if b1 < 0xC2 then consSub (decodeUtf8 rest)
    else if b1 < 0xE0 then
      match rest with
      | [] => ([0xFFFD], 1)
      | b2 :: rest2 =>
        if isCont b2 then
          consChar ((b1 - 0xC0) * 0x40 + (b2 - 0x80)) (decodeUtf8 rest2)
        else consSub (decodeUtf8 (b2 :: rest2))
    else if b1 < 0xF0 then
      match rest with
      | [] => ([0xFFFD], 1)
      | b2 :: rest2 =>
        if (if b1 = 0xE0 then 0xA0 ≤ b2 && b2 < 0xC0
            else if b1 = 0xED then 0x80 ≤ b2 && b2 < 0xA0
            else isCont b2) then
          match rest2 with
          | [] => ([0xFFFD, 0xFFFD], 1)
          | b3 :: rest3 =>
            if isCont b3 then
              consChar ((b1 - 0xE0) * 0x1000 + (b2 - 0x80) * 0x40 + (b3 - 0x80))
                (decodeUtf8 rest3)
            else consSub (decodeUtf8 (b3 :: rest3))
        else consSub (decodeUtf8 (b2 :: rest2))
    else if b1 < 0xF5 then
      match rest with
      | [] => ([0xFFFD], 1)
      | b2 :: rest2 =>
        if (if b1 = 0xF0 then 0x90 ≤ b2 && b2 < 0xC0
            else if b1 = 0xF4 then 0x80 ≤ b2 && b2 < 0x90
            else isCont b2) then
          match rest2 with
          | [] => ([0xFFFD, 0xFFFD], 1)
          | b3 :: rest3 =>
            if isCont b3 then
              match rest3 with
              | [] => ([0xFFFD, 0xFFFD, 0xFFFD], 1)
              | b4 :: rest4 =>
                if isCont b4 then
                  consChar ((b1 - 0xF0) * 0x40000 + (b2 - 0x80) * 0x1000 +
                            (b3 - 0x80) * 0x40 + (b4 - 0x80))
                    (decodeUtf8 rest4)
                else consSub (decodeUtf8 (b4 :: rest4))
            else consSub (decodeUtf8 (b3 :: rest3))
        else consSub (decodeUtf8 (b2 :: rest2))
    else consSub (decodeUtf8 rest)
termination_by l => l.length
decreasing_by all_goals (simp_wf; try omega)

/-- Modelled from the spec: UTF-8 encoding of one scalar value.  Every valid
scalar has an exact representation; no substitution occurs. -/
def utf8Bytes (c : Nat) : List Nat :=
  if c < 0x80 then [c]
  else if c < 0x800 then [0xC0 + c / 0x40, 0x80 + c % 0x40]
  else if c < 0x10000 then
    [0xE0 + c / 0x1000, 0x80 + (c / 0x40) % 0x40, 0x80 + c % 0x40]
  else
    [0xF0 + c / 0x40000, 0x80 + (c / 0x1000) % 0x40,
     0x80 + (c / 0x40) % 0x40, 0x80 + c % 0x40]

/-- Fold a per-scalar encoder over a text, concatenating byte output and
summing unrepresentable counts. -/
def encodeWith (f : Nat → List Nat × Nat) : List Nat → List Nat × Nat
  | [] => ([], 0)
  | c :: rest =>
    let r := f c
    let s := encodeWith f rest
    (r.1 ++ s.1, r.2 + s.2)

/-- Modelled from the spec: UTF-8 encoder over a text; never substitutes. -/
def encodeUtf8 (t : List Nat) : List Nat × Nat := encodeWith (fun c => (utf8Bytes c, 0)) t

/-- Combine two bytes into a 16-bit code unit, little-endian order. -/
def unitLE (b0 b1 : Nat) : Nat := b0 + 0x100 * b1

/-- Combine two bytes into a 16-bit code unit, big-endian order. -/
def unitBE (b0 b1 : Nat) : Nat := 0x100 * b0 + b1

/-- Modelled from the spec: UTF-16 decoder, parameterised by the byte-order
combining function.  Bytes are paired into 16-bit code units; a valid
high/low surrogate pair combines into one scalar value; an unpaired
surrogate (and a trailing lone byte) is replaced with U+FFFD. -/
def decodeUtf16 (u : Nat → Nat → Nat) : List Nat → List Nat × Nat
  | [] => ([], 0)
  | [_] => ([0xFFFD], 1)
  | b0 :: b1 :: rest =>
    let cu := u b0 b1
    if cu < 0xD800 || 0xE000 ≤ cu then consChar cu (decodeUtf16 u rest)
    else if cu < 0xDC00 then
      match rest with
      | b2 :: b3 :: rest2 =>
        let cu2 := u b2 b3
        if 0xDC00 ≤ cu2 && cu2 < 0xE000 then
          consChar (0x10000 + (cu - 0xD800) * 0x400 + (cu2 - 0xDC00))
            (decodeUtf16 u rest2)
        else consSub (decodeUtf16 u (b2 :: b3 :: rest2))
      | [] => ([0xFFFD], 1)
      | [_] => ([0xFFFD, 0xFFFD], 2)
    else consSub (decodeUtf16 u rest)
termination_by l => l.length
decreasing_by all_goals (simp_wf; try omega)

/-- Modelled from the spec: UTF-16 code units of one scalar value: one unit
below 0x10000, a high/low surrogate pair above. -/
def utf16Units (c : Nat) : List Nat :=
  if c < 0x10000 then [c]
  else [0xD800 + (c - 0x10000) / 0x400, 0xDC00 + (c - 0x10000) % 0x400]

/-- Serialise a 16-bit code unit in little-endian byte order. -/
def serLE (cu : Nat) : List Nat := [cu % 0x100, cu / 0x100]

/-- Serialise a 16-bit code unit in big-endian byte order. -/
def serBE (cu : Nat) : List Nat := [cu / 0x100, cu % 0x100]

/-- Modelled from the spec: UTF-16LE encoder; exact for every scalar value,
never substitutes. -/
def encodeUtf16LE (t : List Nat) : List Nat × Nat :=
  encodeWith (fun c => ((utf16Units c).flatMap serLE, 0)) t

/-- Modelled from the spec: UTF-16BE encoder; exact for every scalar value,
never substitutes. -/
def encodeUtf16BE (t : List Nat) : List Nat × Nat :=
  encodeWith (fun c => ((utf16Units c).flatMap serBE, 0)) t

/-- Modelled from the spec: a codec-table entry for the GBK family: a lead
byte, a trail byte and the scalar value the pair denotes. -/
structure GbkEntry where
  lead : Nat
  trail : Nat
  scalar : Nat
deriving DecidableEq

/-- Modelled from the spec: the GB2312 codec table is not present in the
repository; this finite table holds the double-byte characters the
fixtures exercise (测试文本 from the main fixture text and 你好 from the
reduced test data). -/
def gb2312Table : List GbkEntry :=
  [⟨0xB2, 0xE2, 0x6D4B⟩,  -- 测
   ⟨0xCA, 0xD4, 0x8BD5⟩,  -- 试
   ⟨0xCE, 0xC4, 0x6587⟩,  -- 文
   ⟨0xB1, 0xBE, 0x672C⟩,  -- 本
   ⟨0xC4, 0xE3, 0x4F60⟩,  -- 你
   ⟨0xBA, 0xC3, 0x597D⟩]  -- 好

/-- Modelled from the spec: the GBK codec table extends GB2312; the single
extension entry 镕 (U+9555, GBK bytes E9 46) stands for the GBK-only part
of the table, with a trail byte outside the GB2312 trail range. -/
def gbkTable : List GbkEntry :=
  gb2312Table ++ [⟨0xE9, 0x46, 0x9555⟩]

/-- Look up the scalar value of a lead/trail pair in a codec table. -/
def tableDecode (table : List GbkEntry) (l t : Nat) : Option Nat :=
  match table.find? (fun e => e.lead = l && e.trail = t) with
  | some e => some e.scalar
  | none => none

/-- Look up the lead/trail pair of a scalar value in a codec table. -/
def tableEncode (table : List GbkEntry) (c : Nat) : Option (Nat × Nat) :=
  match table.find? (fun e => e.scalar = c) with
  | some e => some (e.lead, e.trail)
  | none => none

/-- Modelled from the spec: GBK-family decoder over a codec table.  A single
byte below 0x80 maps directly to its ASCII scalar value; a byte at or
above 0x80 consumes one trail byte; an undefined lead/trail pair is
replaced with U+FFFD and both bytes are consumed (never resynchronises
mid-sequence).  Always total, never fatal. -/
def decodeGbkWith (table : List GbkEntry) : List Nat → List Nat × Nat
  | [] => ([], 0)
  | b :: rest =>
    if b < 0x80 then consChar b (decodeGbkWith table rest)
    else
      match rest with
      | [] => ([0xFFFD], 1)
      | t :: rest2 =>
        match tableDecode table b t with
        | some c => consChar c (decodeGbkWith table rest2)
        | none => consSub (decodeGbkWith table rest2)

/-- Modelled from the spec: GBK-family encoder over a codec table.  A scalar
below 0x80 is its own single byte; a scalar in the codec table becomes
its lead/trail pair; anything else is replaced with the configured
placeholder byte sequence (default: one byte 0x3F, the question mark)
and counted as unrepresentable. -/
def encodeGbkWith (table : List GbkEntry) (placeholder : List Nat) (t : List Nat) :
    List Nat × Nat :=
  encodeWith (fun c =>
    if c < 0x80 then ([c], 0)
    else
      match tableEncode table c with
      | some lt => ([lt.1, lt.2], 0)
      | none => (placeholder, 1)) t

/-- Default placeholder for unrepresentable characters in the GBK family. -/
def defaultPlaceholder : List Nat := [0x3F]

/-- Modelled from the spec: a concrete member of the supported encoding
family, after LOCAL has been resolved. -/
inductive BaseEnc where
  | utf8 | utf16le | utf16be | gbk | gb2312
deriving DecidableEq

/-- Modelled from the spec: EncodingId ranges over UTF8, UTF16LE, UTF16BE,
GBK, GB2312 and LOCAL; LOCAL is resolved to a concrete encoding at
startup and is immutable for the process lifetime. -/
inductive EncodingId where
  | UTF8 | UTF16LE | UTF16BE | GBK | GB2312 | LOCAL
deriving DecidableEq

/-- Modelled from the spec: the one-time process configuration; the LOCAL
encoding identifier is resolved from the host environment at startup and
injected here, read-only thereafter. -/
structure Engine where
  localEnc : BaseEnc

/-- Resolve an EncodingId to its concrete codec under a given engine
configuration. -/
def resolve (eng : Engine) : EncodingId → BaseEnc
  | .UTF8 => .utf8
  | .UTF16LE => .utf16le
  | .UTF16BE => .utf16be
  | .GBK => .gbk
  | .GB2312 => .gb2312
  | .LOCAL => eng.localEnc

/-- Modelled from the spec: the Decoder dispatch — bytes (BOM already
stripped) plus a resolved encoding give canonical text and a
substitution count; always returns a result, never fatal. -/
def decodeB : BaseEnc → List Nat → List Nat × Nat
  | .utf8 => decodeUtf8
  | .utf16le => decodeUtf16 unitLE
  | .utf16be => decodeUtf16 unitBE
  | .gbk => decodeGbkWith gbkTable
  | .gb2312 => decodeGbkWith gb2312Table

/-- Modelled from the spec: the Encoder dispatch — canonical text plus a
target encoding give output bytes and an unrepresentable count. -/
def encodeB : BaseEnc → List Nat → List Nat × Nat
  | .utf8 => encodeUtf8
  | .utf16le => encodeUtf16LE
  | .utf16be => encodeUtf16BE
  | .gbk => encodeGbkWith gbkTable defaultPlaceholder
  | .gb2312 => encodeGbkWith gb2312Table defaultPlaceholder

/-- Modelled from the spec: heuristic confidence, high or low. -/
inductive Confidence where
  | high | low
deriving DecidableEq

/-- Modelled from the spec: the BOM Sniffer inspects the leading bytes and
returns the longest match among the UTF-8 BOM EF BB BF, the UTF-16LE BOM
FF FE and the UTF-16BE BOM FE FF, together with the BOM byte length so
the Decoder can skip it; none when no prefix matches.  Pure function. -/
def sniffBom : List Nat → Option (EncodingId × Nat)
  | 0xEF :: 0xBB :: 0xBF :: _ => some (.UTF8, 3)
  | 0xFF :: 0xFE :: _ => some (.UTF16LE, 2)
  | 0xFE :: 0xFF :: _ => some (.UTF16BE, 2)
  | _ => none

/-- Modelled from the spec: strict UTF-8 validation — every multi-byte
sequence well-formed per the standard continuation-byte rules. -/
def validUtf8 : List Nat → Bool
  | [] => true
  | b1 :: rest =>
    if b1 < 0x80 then validUtf8 rest
    else if b1 < 0xC2 then false
    else if b1 < 0xE0 then
      match rest with
      | b2 :: rest2 => isCont b2 && validUtf8 rest2
      | [] => false
    else if b1 < 0xF0 then
      match rest with
      | b2 :: b3 :: rest3 =>
        (if b1 = 0xE0 then decide (0xA0 ≤ b2) && decide (b2 < 0xC0)
         else if b1 = 0xED then decide (0x80 ≤ b2) && decide (b2 < 0xA0)
         else isCont b2) && isCont b3 && validUtf8 rest3
      | _ => false
    else if b1 < 0xF5 then
      match rest with
      | b2 :: b3 :: b4 :: rest4 =>
        (if b1 = 0xF0 then decide (0x90 ≤ b2) && decide (b2 < 0xC0)
         else if b1 = 0xF4 then decide (0x80 ≤ b2) && decide (b2 < 0x90)
         else isCont b2) && isCont b3 && isCont b4 && validUtf8 rest4
      | _ => false
    else false
termination_by l => l.length
decreasing_by all_goals (simp_wf; try omega)

/-- Is a 16-bit code unit in the common text ranges used by the UTF-16
plausibility heuristic (Basic Latin or CJK Unified Ideographs)? -/
def commonUnit (cu : Nat) : Bool := cu < 0x80 || (0x4E00 ≤ cu && cu ≤ 0x9FFF)

/-- Pair a byte list into 16-bit code units with a combining function. -/
def toUnits (u : Nat → Nat → Nat) : List Nat → List Nat
  | b0 :: b1 :: rest => u b0 b1 :: toUnits u rest
  | _ => []

/-- Count the code units the plausibility heuristic accepts: units in the
common text ranges, and both halves of a valid surrogate pair. -/
def goodUnits : List Nat → Nat
  | [] => 0
  | cu :: rest =>
    if commonUnit cu then 1 + goodUnits rest
    else
      match rest with
      | cu2 :: rest2 =>
        if 0xD800 ≤ cu && cu < 0xDC00 && 0xDC00 ≤ cu2 && cu2 < 0xE000 then
          2 + goodUnits rest2
        else goodUnits (cu2 :: rest2)
      | [] => 0
termination_by l => l.length
decreasing_by all_goals (simp_wf; try omega)

/-- Modelled from the spec: UTF-16 plausibility — even byte length and the
fraction of accepted code units above the 0.9 threshold. -/
def utf16Plausible (u : Nat → Nat → Nat) (bs : List Nat) : Bool :=
  let units := toUnits u bs
  bs.length % 2 = 0 && units.length ≠ 0 &&
    10 * goodUnits units > 9 * units.length

/-- Modelled from the spec: GBK stream validation — every byte at or above
0x80 must pair with a following byte in the GBK trail-byte range
(0x40..0xFE except 0x7F). -/
def gbkStreamValid : List Nat → Bool
  | [] => true
  | b :: rest =>
    if b < 0x80 then gbkStreamValid rest
    else
      match rest with
      | t :: rest2 =>
        (0x81 ≤ b && b ≤ 0xFE) && (0x40 ≤ t && t ≤ 0xFE && t ≠ 0x7F) &&
          gbkStreamValid rest2
      | [] => false

/-- Modelled from the spec: the Heuristic Detector for buffers with no BOM:
strict UTF-8 validation first, then UTF-16 plausibility for each
endianness, then GBK stream validation, falling back to GBK with a
low-confidence flag as the last resort. -/
def heuristicDetect (bs : List Nat) : EncodingId × Confidence :=
  if validUtf8 bs then (.UTF8, .high)
  else if utf16Plausible unitLE bs then (.UTF16LE, .high)
  else if utf16Plausible unitBE bs then (.UTF16BE, .high)
  else if gbkStreamValid bs then (.GBK, .high)
  else (.GBK, .low)

/-- Modelled from the spec: detect is the BOM sniff with heuristic
fallback; a BOM match is always high confidence. -/
def detect (bs : List Nat) : EncodingId × Confidence :=
  match sniffBom bs with
  | some (e, _) => (e, .high)
  | none => heuristicDetect bs

/-- Modelled from the spec: decode after detection, with the BOM bytes
excluded from the decoded text. -/
def decodeDetected (eng : Engine) (bs : List Nat) : List Nat × Nat :=
  match sniffBom bs with
  | some (e, n) => decodeB (resolve eng e) (bs.drop n)
  | none => decodeB (resolve eng (heuristicDetect bs).1) bs

/-- Modelled from the spec: the target BOM policy of a request. -/
inductive BomPolicy where
  | omit | includeIfConventional
deriving DecidableEq

/-- Modelled from the spec: the conventional BOM byte sequence of a target
encoding — the 2-byte BOM for UTF-16LE/BE; empty for UTF-8 (whose BOM is
never prepended by default) and for the GBK family. -/
def conventionalBom : BaseEnc → List Nat
  | .utf16le => [0xFF, 0xFE]
  | .utf16be => [0xFE, 0xFF]
  | _ => []

/-- Modelled from the spec: the Encoder with BOM insertion governed by the
target BOM policy of the request. -/
def encodeWithBom (enc : BaseEnc) (policy : BomPolicy) (t : List Nat) :
    List Nat × Nat :=
  let r := encodeB enc t
  match policy with
  | .omit => r
  | .includeIfConventional => (conventionalBom enc ++ r.1, r.2)

/-- Modelled from the spec: the states of the Conversion Pipeline. -/
inductive PState where
  | Sniffing | Detecting | Decoding | Encoding | Done
deriving DecidableEq

/-- Modelled from the spec: a ConversionRequest — source bytes, optional
declared source encoding, target encoding and target BOM policy. -/
structure ConversionRequest where
  source : List Nat
  declaredSource : Option EncodingId
  target : EncodingId
  bomPolicy : BomPolicy

/-- Modelled from the spec: the fatal error kinds of the pipeline. -/
inductive ConversionError where
  | EmptyInput | UnsupportedEncoding | AmbiguousDetection
deriving DecidableEq

/-- Modelled from the spec: a ConversionResult — output bytes, resolved
source encoding and the count of substituted or unrepresentable
characters. -/
structure ConversionResult where
  output : List Nat
  resolvedSource : EncodingId
  substitutions : Nat
deriving DecidableEq

/-- Modelled from the spec: the Conversion Pipeline state machine with
states Sniffing, Detecting, Decoding, Encoding and Done, returning both
the sequence of states traversed and the outcome.  A hard failure such
as empty input short-circuits directly to an error result without
advancing further states; Sniffing advances to Detecting only when no
BOM matches; decoding always advances to encoding, even with
substitutions. -/
def convertTrace (eng : Engine) (req : ConversionRequest) :
    List PState × Except ConversionError ConversionResult :=
  if req.source = [] then ([.Sniffing], .error .EmptyInput)
  else
    match req.declaredSource with
    | some e =>
      let d := decodeB (resolve eng e) req.source
      let r := encodeWithBom (resolve eng req.target) req.bomPolicy d.1
      ([.Sniffing, .Decoding, .Encoding, .Done],
       .ok ⟨r.1, e, d.2 + r.2⟩)
    | none =>
      match sniffBom req.source with
      | some (e, n) =>
        let d := decodeB (resolve eng e) (req.source.drop n)
        let r := encodeWithBom (resolve eng req.target) req.bomPolicy d.1
        ([.Sniffing, .Decoding, .Encoding, .Done],
         .ok ⟨r.1, e, d.2 + r.2⟩)
      | none =>
        let e := (heuristicDetect req.source).1
        let d := decodeB (resolve eng e) req.source
        let r := encodeWithBom (resolve eng req.target) req.bomPolicy d.1
        ([.Sniffing, .Detecting, .Decoding, .Encoding, .Done],
         .ok ⟨r.1, e, d.2 + r.2⟩)

/-- Modelled from the spec: convert, the outcome of the pipeline. -/
def convert (eng : Engine) (req : ConversionRequest) :
    Except ConversionError ConversionResult :=
  (convertTrace eng req).2

/-- Per-scalar encoder of each concrete encoding, as used by the Encoder
dispatch. -/
def encChar : BaseEnc → Nat → List Nat × Nat
  | .utf8 => fun c => (utf8Bytes c, 0)
  | .utf16le => fun c => ((utf16Units c).flatMap serLE, 0)
  | .utf16be => fun c => ((utf16Units c).flatMap serBE, 0)
  | .gbk => fun c =>
      if c < 0x80 then ([c], 0)
      else
        match tableEncode gbkTable c with
        | some lt => ([lt.1, lt.2], 0)
        | none => (defaultPlaceholder, 1)
  | .gb2312 => fun c =>
      if c < 0x80 then ([c], 0)
      else
        match tableEncode gb2312Table c with
        | some lt => ([lt.1, lt.2], 0)
        | none => (defaultPlaceholder, 1)

/-- Modelled from the spec: a scalar value is fully representable in an
encoding when encoding it cannot substitute: always, for the Unicode
transformation formats; only for ASCII and codec-table characters, for
the GBK family (emoji and uncovered symbols are documented lossy). -/
def representable : BaseEnc → Nat → Bool
  | .utf8, _ => true
  | .utf16le, _ => true
  | .utf16be, _ => true
  | .gbk, c => decide (c < 0x80) || (tableEncode gbkTable c).isSome
  | .gb2312, c => decide (c < 0x80) || (tableEncode gb2312Table c).isSome

lemma encodeB_eq_encodeWith (E : BaseEnc) (t : List Nat) :
    encodeB E t = encodeWith (encChar E) t := by
  cases E <;> rfl

lemma utf8_step (c : Nat) (hc : ValidScalar c) (bs : List Nat) :
    decodeUtf8 (utf8Bytes c ++ bs) = consChar c (decodeUtf8 bs) := by
  obtain ⟨h1, h2⟩ := hc
  by_cases hA : c < 0x80
  · simp only [utf8Bytes, if_pos hA, List.cons_append, List.nil_append]
    conv_lhs => rw [decodeUtf8.eq_def]
    simp only []
    rw [if_pos hA]
  · by_cases hB : c < 0x800
    · simp only [utf8Bytes, if_neg hA, if_pos hB, List.cons_append, List.nil_append]
      conv_lhs => rw [decodeUtf8.eq_def]
      simp only []
      have hcont2 : isCont (0x80 + c % 0x40) = true := by
        simp only [isCont, Bool.and_eq_true, decide_eq_true_eq]
        omega
      have hv : (0xC0 + c / 0x40 - 0xC0) * 0x40 + (0x80 + c % 0x40 - 0x80) = c := by
        omega
      rw [if_neg (by omega), if_neg (by omega), if_pos (by omega), if_pos hcont2, hv]
    · by_cases hC : c < 0x10000
      · simp only [utf8Bytes, if_neg hA, if_neg hB, if_pos hC, List.cons_append,
          List.nil_append]
        conv_lhs => rw [decodeUtf8.eq_def]
        simp only []
        rw [if_neg (by omega), if_neg (by omega), if_neg (by omega), if_pos (by omega)]
        have hcont3 : isCont (0x80 + c % 0x40) = true := by
          simp only [isCont, Bool.and_eq_true, decide_eq_true_eq]
          omega
        have hv : (0xE0 + c / 0x1000 - 0xE0) * 0x1000 +
            (0x80 + c / 0x40 % 0x40 - 0x80) * 0x40 + (0x80 + c % 0x40 - 0x80) = c := by
          omega
        by_cases hs1 : c < 0x1000
        · have hb1 : 0xE0 + c / 0x1000 = 0xE0 := by omega
          have hcnd : (if 0xE0 + c / 0x1000 = 0xE0 then
              decide (0xA0 ≤ 0x80 + c / 0x40 % 0x40) && decide (0x80 + c / 0x40 % 0x40 < 0xC0)
              else if 0xE0 + c / 0x1000 = 0xED then
              decide (0x80 ≤ 0x80 + c / 0x40 % 0x40) && decide (0x80 + c / 0x40 % 0x40 < 0xA0)
              else isCont (0x80 + c / 0x40 % 0x40)) = true := by
            rw [if_pos hb1]
            simp only [Bool.and_eq_true, decide_eq_true_eq]
            omega
          rw [if_pos hcnd, if_pos hcont3, hv]
        · by_cases hs2 : 0xD000 ≤ c ∧ c < 0xE000
          · have hb1 : 0xE0 + c / 0x1000 = 0xED := by omega
            have hcnd : (if 0xE0 + c / 0x1000 = 0xE0 then
                decide (0xA0 ≤ 0x80 + c / 0x40 % 0x40) && decide (0x80 + c / 0x40 % 0x40 < 0xC0)
                else if 0xE0 + c / 0x1000 = 0xED then
                decide (0x80 ≤ 0x80 + c / 0x40 % 0x40) && decide (0x80 + c / 0x40 % 0x40 < 0xA0)
                else isCont (0x80 + c / 0x40 % 0x40)) = true := by
              rw [if_neg (by omega), if_pos hb1]
              simp only [Bool.and_eq_true, decide_eq_true_eq]
              omega
            rw [if_pos hcnd, if_pos hcont3, hv]
          · have hcnd : (if 0xE0 + c / 0x1000 = 0xE0 then
                decide (0xA0 ≤ 0x80 + c / 0x40 % 0x40) && decide (0x80 + c / 0x40 % 0x40 < 0xC0)
                else if 0xE0 + c / 0x1000 = 0xED then
                decide (0x80 ≤ 0x80 + c / 0x40 % 0x40) && decide (0x80 + c / 0x40 % 0x40 < 0xA0)
                else isCont (0x80 + c / 0x40 % 0x40)) = true := by
              rw [if_neg (by omega), if_neg (by omega)]
              simp only [isCont, Bool.and_eq_true, decide_eq_true_eq]
              omega
            rw [if_pos hcnd, if_pos hcont3, hv]
      · simp only [utf8Bytes, if_neg hA, if_neg hB, if_neg hC, List.cons_append,
          List.nil_append]
        conv_lhs => rw [decodeUtf8.eq_def]
        simp only []
        rw [if_neg (by omega), if_neg (by omega), if_neg (by omega), if_neg (by omega),
          if_pos (by omega)]
        have hcont3 : isCont (0x80 + c / 0x40 % 0x40) = true := by
          simp only [isCont, Bool.and_eq_true, decide_eq_true_eq]
          omega
        have hcont4 : isCont (0x80 + c % 0x40) = true := by
          simp only [isCont, Bool.and_eq_true, decide_eq_true_eq]
          omega
        have hv : (0xF0 + c / 0x40000 - 0xF0) * 0x40000 +
            (0x80 + c / 0x1000 % 0x40 - 0x80) * 0x1000 +
            (0x80 + c / 0x40 % 0x40 - 0x80) * 0x40 + (0x80 + c % 0x40 - 0x80) = c := by
          omega
        by_cases ht1 : c < 0x40000
        · have hcnd : (if 0xF0 + c / 0x40000 = 0xF0 then
              decide (0x90 ≤ 0x80 + c / 0x1000 % 0x40) && decide (0x80 + c / 0x1000 % 0x40 < 0xC0)
              else if 0xF0 + c / 0x40000 = 0xF4 then
              decide (0x80 ≤ 0x80 + c / 0x1000 % 0x40) && decide (0x80 + c / 0x1000 % 0x40 < 0x90)
              else isCont (0x80 + c / 0x1000 % 0x40)) = true := by
            rw [if_pos (by omega)]
            simp only [Bool.and_eq_true, decide_eq_true_eq]
            omega
          rw [if_pos hcnd, if_pos hcont3, if_pos hcont4, hv]
        · by_cases ht2 : 0x100000 ≤ c
          · have hcnd : (if 0xF0 + c / 0x40000 = 0xF0 then
                decide (0x90 ≤ 0x80 + c / 0x1000 % 0x40) && decide (0x80 + c / 0x1000 % 0x40 < 0xC0)
                else if 0xF0 + c / 0x40000 = 0xF4 then
                decide (0x80 ≤ 0x80 + c / 0x1000 % 0x40) && decide (0x80 + c / 0x1000 % 0x40 < 0x90)
                else isCont (0x80 + c / 0x1000 % 0x40)) = true := by
              rw [if_neg (by omega), if_pos (by omega)]
              simp only [Bool.and_eq_true, decide_eq_true_eq]
              omega
            rw [if_pos hcnd, if_pos hcont3, if_pos hcont4, hv]
          · have hcnd : (if 0xF0 + c / 0x40000 = 0xF0 then
                decide (0x90 ≤ 0x80 + c / 0x1000 % 0x40) && decide (0x80 + c / 0x1000 % 0x40 < 0xC0)
                else if 0xF0 + c / 0x40000 = 0xF4 then
                decide (0x80 ≤ 0x80 + c / 0x1000 % 0x40) && decide (0x80 + c / 0x1000 % 0x40 < 0x90)
                else isCont (0x80 + c / 0x1000 % 0x40)) = true := by
              rw [if_neg (by omega), if_neg (by omega)]
              simp only [isCont, Bool.and_eq_true, decide_eq_true_eq]
              omega
            rw [if_pos hcnd, if_pos hcont3, if_pos hcont4, hv]


lemma decodeUtf16_nil (u : Nat → Nat → Nat) : decodeUtf16 u [] = ([], 0) := by
  rw [decodeUtf16.eq_def]

lemma utf16_step (u : Nat → Nat → Nat) (ser : Nat → List Nat)
    (hinv : ∀ cu, ∃ a b, ser cu = [a, b] ∧ u a b = cu)
    (c : Nat) (hc : ValidScalar c) (bs : List Nat) :
    decodeUtf16 u ((utf16Units c).flatMap ser ++ bs) = consChar c (decodeUtf16 u bs) := by
  obtain ⟨h1, h2⟩ := hc
  by_cases hA : c < 0x10000
  · obtain ⟨a, b, hab, hu⟩ := hinv c
    simp only [utf16Units, if_pos hA, List.flatMap_cons, List.flatMap_nil,
      List.append_nil, hab, List.cons_append, List.nil_append]
    conv_lhs => rw [decodeUtf16.eq_def]
    simp only [hu]
    rw [if_pos (by simp only [Bool.or_eq_true, decide_eq_true_eq]; omega)]
  · have hhi : 0xD800 + (c - 0x10000) / 0x400 < 0xDC00 := by omega
    obtain ⟨a, b, hab, hu⟩ := hinv (0xD800 + (c - 0x10000) / 0x400)
    obtain ⟨a2, b2, hab2, hu2⟩ := hinv (0xDC00 + (c - 0x10000) % 0x400)
    simp only [utf16Units, if_neg hA, List.flatMap_cons, List.flatMap_nil,
      List.append_nil, hab, hab2, List.cons_append, List.nil_append]
    conv_lhs => rw [decodeUtf16.eq_def]
    simp only [hu, hu2]
    rw [if_neg (by simp only [Bool.or_eq_true, decide_eq_true_eq]; omega),
      if_pos (by omega),
      if_pos (by simp only [Bool.and_eq_true, decide_eq_true_eq]; omega)]
    have hv : 0x10000 + (0xD800 + (c - 0x10000) / 0x400 - 0xD800) * 0x400 +
        (0xDC00 + (c - 0x10000) % 0x400 - 0xDC00) = c := by omega
    rw [hv]

lemma serLE_inv : ∀ cu, ∃ a b, serLE cu = [a, b] ∧ unitLE a b = cu := by
  intro cu
  refine ⟨cu % 0x100, cu / 0x100, rfl, ?_⟩
  simp only [unitLE]
  omega

lemma serBE_inv : ∀ cu, ∃ a b, serBE cu = [a, b] ∧ unitBE a b = cu := by
  intro cu
  refine ⟨cu / 0x100, cu % 0x100, rfl, ?_⟩
  simp only [unitBE]
  omega

lemma gbk_table_sound : ∀ e ∈ gbkTable, 0x80 ≤ e.lead ∧
    tableDecode gbkTable e.lead e.trail = some e.scalar := by decide

lemma gb2312_table_sound : ∀ e ∈ gb2312Table, 0x80 ≤ e.lead ∧
    tableDecode gb2312Table e.lead e.trail = some e.scalar := by decide

lemma gbk_step (table : List GbkEntry) (placeholder : List Nat)
    (hsound : ∀ e ∈ table, 0x80 ≤ e.lead ∧
      tableDecode table e.lead e.trail = some e.scalar)
    (c : Nat)
    (hrep : c < 0x80 ∨ (tableEncode table c).isSome = true) (bs : List Nat) :
    decodeGbkWith table ((if c < 0x80 then ([c], 0)
      else
        match tableEncode table c with
        | some lt => ([lt.1, lt.2], 0)
        | none => (placeholder, 1) : List Nat × Nat).1 ++ bs) =
      consChar c (decodeGbkWith table bs) := by
  by_cases hA : c < 0x80
  · simp only [if_pos hA, List.cons_append, List.nil_append]
    conv_lhs => rw [decodeGbkWith.eq_def]
    simp only []
    rw [if_pos hA]
  · have hs : (tableEncode table c).isSome = true := by
      rcases hrep with h | h
      · omega
      · exact h
    rw [Option.isSome_iff_exists] at hs
    obtain ⟨lt, hlt⟩ := hs
    have hmem : ∃ e ∈ table, e.lead = lt.1 ∧ e.trail = lt.2 ∧ e.scalar = c := by
      unfold tableEncode at hlt
      rcases hfind : table.find? (fun e => e.scalar = c) with _ | e
      · rw [hfind] at hlt
        simp at hlt
      · rw [hfind] at hlt
        simp only [Option.some.injEq] at hlt
        refine ⟨e, List.mem_of_find?_eq_some hfind, ?_, ?_, ?_⟩
        · rw [← hlt]
        · rw [← hlt]
        · have := List.find?_some hfind
          simp only [decide_eq_true_eq] at this
          exact this
    obtain ⟨e, hemem, hl, ht, hsc⟩ := hmem
    obtain ⟨hlead, hdec⟩ := hsound e hemem
    simp only [if_neg hA, hlt, List.cons_append, List.nil_append]
    conv_lhs => rw [decodeGbkWith]
    rw [if_neg (show ¬ lt.1 < 0x80 by omega)]
    rw [show tableDecode table lt.1 lt.2 = some c by rw [← hl, ← ht, hdec, hsc]]

lemma roundtrip_text (dec : List Nat → List Nat × Nat) (f : Nat → List Nat × Nat)
    (P : Nat → Prop)
    (hstep : ∀ c bs, P c → dec ((f c).1 ++ bs) = consChar c (dec bs)) :
    ∀ T bs, (∀ c ∈ T, P c) →
      dec ((encodeWith f T).1 ++ bs) = (T ++ (dec bs).1, (dec bs).2) := by
  intro T
  induction T with
  | nil =>
    intro bs h
    simp [encodeWith]
  | cons c T ih =>
    intro bs h
    have hbytes : (encodeWith f (c :: T)).1 = (f c).1 ++ (encodeWith f T).1 := rfl
    rw [hbytes, List.append_assoc, hstep c _ (h c (by simp)),
      ih bs (fun d hd => h d (by simp [hd]))]
    simp [consChar]


set_option maxRecDepth 2000 in
lemma decodeUtf8_valid (bs : List Nat) : ∀ c ∈ (decodeUtf8 bs).1, ValidScalar c := by
  rcases bs with _ | ⟨b1, rest⟩
  · intro c hc
    rw [decodeUtf8.eq_def] at hc
    simp at hc
  · intro c hc
    rw [decodeUtf8.eq_def] at hc
    simp only [] at hc
    by_cases h1 : b1 < 0x80
    · rw [if_pos h1] at hc
      simp only [consChar, List.mem_cons] at hc
      rcases hc with rfl | hc
      · exact ⟨by omega, by omega⟩
      · exact decodeUtf8_valid rest c hc
    · rw [if_neg h1] at hc
      by_cases h2 : b1 < 0xC2
      · rw [if_pos h2] at hc
        simp only [consSub, List.mem_cons] at hc
        rcases hc with rfl | hc
        · exact ⟨by omega, by omega⟩
        · exact decodeUtf8_valid rest c hc
      · rw [if_neg h2] at hc
        by_cases h3 : b1 < 0xE0
        · rw [if_pos h3] at hc
          rcases rest with _ | ⟨b2, rest2⟩
          · simp only [List.mem_singleton] at hc
            subst hc
            exact ⟨by omega, by omega⟩
          · simp only [] at hc
            by_cases hk : isCont b2 = true
            · rw [if_pos hk] at hc
              simp only [isCont, Bool.and_eq_true, decide_eq_true_eq] at hk
              simp only [consChar, List.mem_cons] at hc
              rcases hc with rfl | hc
              · exact ⟨by omega, by omega⟩
              · exact decodeUtf8_valid rest2 c hc
            · rw [if_neg hk] at hc
              simp only [consSub, List.mem_cons] at hc
              rcases hc with rfl | hc
              · exact ⟨by omega, by omega⟩
              · exact decodeUtf8_valid (b2 :: rest2) c hc
        · rw [if_neg h3] at hc
          by_cases h4 : b1 < 0xF0
          · rw [if_pos h4] at hc
            rcases rest with _ | ⟨b2, rest2⟩
            · simp only [List.mem_singleton] at hc
              subst hc
              exact ⟨by omega, by omega⟩
            · simp only [] at hc
              by_cases hk : (if b1 = 0xE0 then decide (0xA0 ≤ b2) && decide (b2 < 0xC0)
                  else if b1 = 0xED then decide (0x80 ≤ b2) && decide (b2 < 0xA0)
                  else isCont b2) = true
              · rw [if_pos hk] at hc
                have hb2 : (b1 = 0xE0 ∧ 0xA0 ≤ b2 ∧ b2 < 0xC0) ∨
                    (b1 = 0xED ∧ 0x80 ≤ b2 ∧ b2 < 0xA0) ∨
                    (b1 ≠ 0xE0 ∧ b1 ≠ 0xED ∧ 0x80 ≤ b2 ∧ b2 < 0xC0) := by
                  by_cases he : b1 = 0xE0
                  · rw [if_pos he] at hk
                    simp only [Bool.and_eq_true, decide_eq_true_eq] at hk
                    exact Or.inl ⟨he, hk⟩
                  · rw [if_neg he] at hk
                    by_cases hd : b1 = 0xED
                    · rw [if_pos hd] at hk
                      simp only [Bool.and_eq_true, decide_eq_true_eq] at hk
                      exact Or.inr (Or.inl ⟨hd, hk⟩)
                    · rw [if_neg hd] at hk
                      simp only [isCont, Bool.and_eq_true, decide_eq_true_eq] at hk
                      exact Or.inr (Or.inr ⟨he, hd, hk⟩)
                rcases rest2 with _ | ⟨b3, rest3⟩
                · simp only [List.mem_cons, List.not_mem_nil, or_false] at hc
                  rcases hc with rfl | rfl <;> exact ⟨by omega, by omega⟩
                · simp only [] at hc
                  by_cases hk3 : isCont b3 = true
                  · rw [if_pos hk3] at hc
                    simp only [isCont, Bool.and_eq_true, decide_eq_true_eq] at hk3
                    simp only [consChar, List.mem_cons] at hc
                    rcases hc with rfl | hc
                    · refine ⟨by omega, ?_⟩
                      rcases hb2 with ⟨he, hlo, hhi⟩ | ⟨he, hlo, hhi⟩ | ⟨he, hd, hlo, hhi⟩
                      · subst he; omega
                      · subst he; omega
                      · omega
                    · exact decodeUtf8_valid rest3 c hc
                  · rw [if_neg hk3] at hc
                    simp only [consSub, List.mem_cons] at hc
                    rcases hc with rfl | hc
                    · exact ⟨by omega, by omega⟩
                    · exact decodeUtf8_valid (b3 :: rest3) c hc
              · rw [if_neg hk] at hc
                simp only [consSub, List.mem_cons] at hc
                rcases hc with rfl | hc
                · exact ⟨by omega, by omega⟩
                · exact decodeUtf8_valid (b2 :: rest2) c hc
          · rw [if_neg h4] at hc
            by_cases h5 : b1 < 0xF5
            · rw [if_pos h5] at hc
              rcases rest with _ | ⟨b2, rest2⟩
              · simp only [List.mem_singleton] at hc
                subst hc
                exact ⟨by omega, by omega⟩
              · simp only [] at hc
                by_cases hk : (if b1 = 0xF0 then decide (0x90 ≤ b2) && decide (b2 < 0xC0)
                    else if b1 = 0xF4 then decide (0x80 ≤ b2) && decide (b2 < 0x90)
                    else isCont b2) = true
                · rw [if_pos hk] at hc
                  have hb2 : (b1 = 0xF0 ∧ 0x90 ≤ b2 ∧ b2 < 0xC0) ∨
                      (b1 = 0xF4 ∧ 0x80 ≤ b2 ∧ b2 < 0x90) ∨
                      (b1 ≠ 0xF0 ∧ b1 ≠ 0xF4 ∧ 0x80 ≤ b2 ∧ b2 < 0xC0) := by
                    by_cases he : b1 = 0xF0
                    · rw [if_pos he] at hk
                      simp only [Bool.and_eq_true, decide_eq_true_eq] at hk
                      exact Or.inl ⟨he, hk⟩
                    · rw [if_neg he] at hk
                      by_cases hd : b1 = 0xF4
                      · rw [if_pos hd] at hk
                        simp only [Bool.and_eq_true, decide_eq_true_eq] at hk
                        exact Or.inr (Or.inl ⟨hd, hk⟩)
                      · rw [if_neg hd] at hk
                        simp only [isCont, Bool.and_eq_true, decide_eq_true_eq] at hk
                        exact Or.inr (Or.inr ⟨he, hd, hk⟩)
                  rcases rest2 with _ | ⟨b3, rest3⟩
                  · simp only [List.mem_cons, List.not_mem_nil, or_false] at hc
                    rcases hc with rfl | rfl <;> exact ⟨by omega, by omega⟩
                  · simp only [] at hc
                    by_cases hk3 : isCont b3 = true
                    · rw [if_pos hk3] at hc
                      simp only [isCont, Bool.and_eq_true, decide_eq_true_eq] at hk3
                      rcases rest3 with _ | ⟨b4, rest4⟩
                      · simp only [List.mem_cons, List.not_mem_nil, or_false] at hc
                        rcases hc with rfl | rfl | rfl <;> exact ⟨by omega, by omega⟩
                      · simp only [] at hc
                        by_cases hk4 : isCont b4 = true
                        · rw [if_pos hk4] at hc
                          simp only [isCont, Bool.and_eq_true, decide_eq_true_eq] at hk4
                          simp only [consChar, List.mem_cons] at hc
                          rcases hc with rfl | hc
                          · refine ⟨?_, ?_⟩
                            · rcases hb2 with ⟨he, hlo, hhi⟩ | ⟨he, hlo, hhi⟩ | ⟨he, hd, hlo, hhi⟩
                              · subst he; omega
                              · subst he; omega
                              · omega
                            · rcases hb2 with ⟨he, hlo, hhi⟩ | ⟨he, hlo, hhi⟩ | ⟨he, hd, hlo, hhi⟩
                              · subst he; omega
                              · subst he; omega
                              · omega
                          · exact decodeUtf8_valid rest4 c hc
                        · rw [if_neg hk4] at hc
                          simp only [consSub, List.mem_cons] at hc
                          rcases hc with rfl | hc
                          · exact ⟨by omega, by omega⟩
                          · exact decodeUtf8_valid (b4 :: rest4) c hc
                    · rw [if_neg hk3] at hc
                      simp only [consSub, List.mem_cons] at hc
                      rcases hc with rfl | hc
                      · exact ⟨by omega, by omega⟩
                      · exact decodeUtf8_valid (b3 :: rest3) c hc
                · rw [if_neg hk] at hc
                  simp only [consSub, List.mem_cons] at hc
                  rcases hc with rfl | hc
                  · exact ⟨by omega, by omega⟩
                  · exact decodeUtf8_valid (b2 :: rest2) c hc
            · rw [if_neg h5] at hc
              simp only [consSub, List.mem_cons] at hc
              rcases hc with rfl | hc
              · exact ⟨by omega, by omega⟩
              · exact decodeUtf8_valid rest c hc
termination_by bs.length
decreasing_by all_goals (simp_wf; try omega)


set_option maxRecDepth 2000 in
lemma decodeUtf16_valid (u : Nat → Nat → Nat)
    (hu : ∀ a b, a < 256 → b < 256 → u a b < 0x10000)
    (bs : List Nat) :
    IsByteBuffer bs → ∀ c ∈ (decodeUtf16 u bs).1, ValidScalar c := by
  rcases bs with _ | ⟨b0, rest⟩
  · intro hb c hc
    rw [decodeUtf16.eq_def] at hc
    simp at hc
  · rcases rest with _ | ⟨b1, rest⟩
    · intro hb c hc
      rw [decodeUtf16.eq_def] at hc
      simp only [List.mem_singleton] at hc
      subst hc
      exact ⟨by omega, by omega⟩
    · intro hb c hc
      rw [decodeUtf16.eq_def] at hc
      simp only [] at hc
      have hcu : u b0 b1 < 0x10000 :=
        hu b0 b1 (hb b0 (by simp)) (hb b1 (by simp))
      have hbrest : IsByteBuffer rest := fun b hbm => hb b (by simp [hbm])
      by_cases hA : (u b0 b1 < 0xD800 || 0xE000 ≤ u b0 b1) = true
      · rw [if_pos hA] at hc
        simp only [Bool.or_eq_true, decide_eq_true_eq] at hA
        simp only [consChar, List.mem_cons] at hc
        rcases hc with rfl | hc
        · exact ⟨by omega, by omega⟩
        · exact decodeUtf16_valid u hu rest hbrest c hc
      · rw [if_neg hA] at hc
        simp only [Bool.or_eq_true, decide_eq_true_eq, not_or, not_lt] at hA
        by_cases hB : u b0 b1 < 0xDC00
        · rw [if_pos hB] at hc
          rcases rest with _ | ⟨b2, rest⟩
          · simp only [List.mem_singleton] at hc
            subst hc
            exact ⟨by omega, by omega⟩
          · rcases rest with _ | ⟨b3, rest2⟩
            · simp only [List.mem_cons, List.not_mem_nil, or_false] at hc
              rcases hc with rfl | rfl <;> exact ⟨by omega, by omega⟩
            · simp only [] at hc
              have hcu2 : u b2 b3 < 0x10000 :=
                hu b2 b3 (hbrest b2 (by simp)) (hbrest b3 (by simp))
              have hbrest2 : IsByteBuffer rest2 := fun b hbm => hbrest b (by simp [hbm])
              by_cases hC : (0xDC00 ≤ u b2 b3 && u b2 b3 < 0xE000) = true
              · rw [if_pos hC] at hc
                simp only [Bool.and_eq_true, decide_eq_true_eq] at hC
                simp only [consChar, List.mem_cons] at hc
                rcases hc with hceq | hc
                · exact ⟨by omega, by omega⟩
                · exact decodeUtf16_valid u hu rest2 hbrest2 c hc
              · rw [if_neg hC] at hc
                simp only [consSub, List.mem_cons] at hc
                rcases hc with rfl | hc
                · exact ⟨by omega, by omega⟩
                · exact decodeUtf16_valid u hu (b2 :: b3 :: rest2) hbrest c hc
        · rw [if_neg hB] at hc
          simp only [consSub, List.mem_cons] at hc
          rcases hc with rfl | hc
          · exact ⟨by omega, by omega⟩
          · exact decodeUtf16_valid u hu rest hbrest c hc
termination_by bs.length
decreasing_by all_goals (simp_wf; try omega)

set_option maxRecDepth 2000 in
lemma decodeGbk_valid (table : List GbkEntry)
    (hval : ∀ e ∈ table, ValidScalar e.scalar) (bs : List Nat) :
    ∀ c ∈ (decodeGbkWith table bs).1, ValidScalar c := by
  rcases bs with _ | ⟨b, rest⟩
  · intro c hc
    rw [decodeGbkWith.eq_def] at hc
    simp at hc
  · intro c hc
    rw [decodeGbkWith.eq_def] at hc
    simp only [] at hc
    by_cases hA : b < 0x80
    · rw [if_pos hA] at hc
      simp only [consChar, List.mem_cons] at hc
      rcases hc with rfl | hc
      · exact ⟨by omega, by omega⟩
      · exact decodeGbk_valid table hval rest c hc
    · rw [if_neg hA] at hc
      rcases rest with _ | ⟨t, rest2⟩
      · simp only [List.mem_singleton] at hc
        subst hc
        exact ⟨by omega, by omega⟩
      · simp only [] at hc
        rcases hd : tableDecode table b t with _ | c0
        · rw [hd] at hc
          simp only [consSub, List.mem_cons] at hc
          rcases hc with rfl | hc
          · exact ⟨by omega, by omega⟩
          · exact decodeGbk_valid table hval rest2 c hc
        · rw [hd] at hc
          simp only [consChar, List.mem_cons] at hc
          rcases hc with rfl | hc
          · unfold tableDecode at hd
            rcases hfind : table.find? (fun e => e.lead = b && e.trail = t) with _ | e
            · rw [hfind] at hd
              simp at hd
            · rw [hfind] at hd
              simp only [Option.some.injEq] at hd
              have := hval e (List.mem_of_find?_eq_some hfind)
              rw [hd] at this
              exact this
          · exact decodeGbk_valid table hval rest2 c hc
termination_by bs.length
decreasing_by all_goals (simp_wf; try omega)


lemma decodeB_nil (E : BaseEnc) : decodeB E [] = ([], 0) := by
  cases E
  · rw [show decodeB .utf8 = decodeUtf8 from rfl, decodeUtf8.eq_def]
  · rw [show decodeB .utf16le = decodeUtf16 unitLE from rfl, decodeUtf16.eq_def]
  · rw [show decodeB .utf16be = decodeUtf16 unitBE from rfl, decodeUtf16.eq_def]
  · rfl
  · rfl

lemma encChar_step (E : BaseEnc) (c : Nat) (hval : ValidScalar c)
    (hrep : representable E c = true) (bs : List Nat) :
    decodeB E ((encChar E c).1 ++ bs) = consChar c (decodeB E bs) := by
  cases E
  · exact utf8_step c hval bs
  · exact utf16_step unitLE serLE serLE_inv c hval bs
  · exact utf16_step unitBE serBE serBE_inv c hval bs
  · simp only [representable, Bool.or_eq_true, decide_eq_true_eq] at hrep
    exact gbk_step gbkTable defaultPlaceholder gbk_table_sound c hrep bs
  · simp only [representable, Bool.or_eq_true, decide_eq_true_eq] at hrep
    exact gbk_step gb2312Table defaultPlaceholder gb2312_table_sound c hrep bs

/-- Claim C1: for every supported encoding E and every canonical text T that
is fully representable in E, decoding the encoding of T under E gives back
exactly T (round-trip law); the GBK family on emoji and uncovered symbols
is excluded by the representability hypothesis, being documented lossy. -/
theorem roundtrip_law (E : BaseEnc) (T : List Nat)
    (h : ∀ c ∈ T, ValidScalar c ∧ representable E c = true) :
    (decodeB E (encodeB E T).1).1 = T := by
  have hrt := roundtrip_text (decodeB E) (encChar E)
    (fun c => ValidScalar c ∧ representable E c = true)
    (fun c bs hc => encChar_step E c hc.1 hc.2 bs) T [] h
  have happ : (encodeWith (encChar E) T).1 ++ [] = (encodeWith (encChar E) T).1 :=
    List.append_nil _
  rw [happ] at hrt
  rw [encodeB_eq_encodeWith, hrt, decodeB_nil]
  simp

/-- Witness for C1 at the GBK encoding and the text 测H. -/
theorem roundtrip_law_witness :
    (∀ c ∈ [0x6D4B, 0x48], ValidScalar c ∧ representable .gbk c = true) ∧
      (decodeB .gbk (encodeB .gbk [0x6D4B, 0x48]).1).1 = [0x6D4B, 0x48] :=
  ⟨by decide, roundtrip_law .gbk [0x6D4B, 0x48] (by decide)⟩


/-- The main fixture text 测试文本Hello World 123 as canonical text. -/
def fixtureText : List Nat :=
  [0x6D4B, 0x8BD5, 0x6587, 0x672C, 0x48, 0x65, 0x6C, 0x6C, 0x6F, 0x20,
   0x57, 0x6F, 0x72, 0x6C, 0x64, 0x20, 0x31, 0x32, 0x33]

/-- The emoji fixture text 😀😂👍 as canonical text. -/
def emojiText : List Nat := [0x1F600, 0x1F602, 0x1F44D]

instance (bs : List Nat) : Decidable (IsByteBuffer bs) := by
  unfold IsByteBuffer
  infer_instance

lemma unitLE_byte_bound : ∀ a b, a < 256 → b < 256 → unitLE a b < 0x10000 := by
  intro a b ha hb
  simp only [unitLE]
  omega

lemma unitBE_byte_bound : ∀ a b, a < 256 → b < 256 → unitBE a b < 0x10000 := by
  intro a b ha hb
  simp only [unitBE]
  omega

/-- Claim C2: decoding is total — for every byte buffer and every resolved
encoding the Decoder returns a result whose text contains only valid
Unicode scalar values (no lone surrogates, invalid input replaced by
U+FFFD); in particular an unpaired UTF-16 surrogate (the lone UTF-16LE
high surrogate D800) decodes to U+FFFD with one substitution counted. -/
theorem decode_total_valid_scalars :
    (∀ (E : BaseEnc) (bs : List Nat), IsByteBuffer bs →
      ∀ c ∈ (decodeB E bs).1, ValidScalar c) ∧
      decodeB .utf16le [0x00, 0xD8] = ([0xFFFD], 1) := by
  constructor
  · intro E bs hb
    cases E
    · exact decodeUtf8_valid bs
    · exact decodeUtf16_valid unitLE unitLE_byte_bound bs hb
    · exact decodeUtf16_valid unitBE unitBE_byte_bound bs hb
    · exact decodeGbk_valid gbkTable (by decide) bs
    · exact decodeGbk_valid gb2312Table (by decide) bs
  · rw [show decodeB .utf16le = decodeUtf16 unitLE from rfl, decodeUtf16.eq_def]
    norm_num [unitLE]

/-- Witness for C2 at the one-byte ASCII buffer 41. -/
theorem decode_total_valid_scalars_witness :
    IsByteBuffer [0x41] ∧ ValidScalar 0x41 := by
  refine ⟨by decide, ?_⟩
  refine decode_total_valid_scalars.1 .utf8 [0x41] (by decide) 0x41 ?_
  rw [show decodeB .utf8 = decodeUtf8 from rfl, decodeUtf8.eq_def]
  norm_num
  rw [decodeUtf8.eq_def]
  norm_num [consChar]

lemma encodeWith_exact (f : Nat → List Nat) (T : List Nat) :
    (encodeWith (fun c => (f c, 0)) T).2 = 0 := by
  induction T with
  | nil => rfl
  | cons c T ih =>
    simp only [encodeWith, ih]

/-- Claim C3: the Unicode transformation targets never substitute — for
every canonical text, encoding to UTF-8, UTF-16LE or UTF-16BE reports an
unrepresentable count of zero — while encoding the emoji sequence
😀😂👍 to GBK yields a nonzero unrepresentable count of three with one
placeholder byte 3F per emoji scalar, and the same sequence to UTF-16LE
yields zero unrepresentable count. -/
theorem encode_substitution_counts :
    (∀ T : List Nat, (encodeB .utf8 T).2 = 0) ∧
    (∀ T : List Nat, (encodeB .utf16le T).2 = 0) ∧
    (∀ T : List Nat, (encodeB .utf16be T).2 = 0) ∧
    encodeB .gbk emojiText = ([0x3F, 0x3F, 0x3F], 3) ∧
    (encodeB .utf16le emojiText).2 = 0 := by
  refine ⟨fun T => encodeWith_exact _ T, fun T => encodeWith_exact _ T,
    fun T => encodeWith_exact _ T, by decide, by decide⟩

/-- Claim C5: decoding the GBK encoding of 测试文本Hello World 123 and
re-encoding the decoded text to UTF-8 yields byte-for-byte the same buffer
as encoding the original text directly to UTF-8. -/
theorem gbk_utf8_cross_equivalence :
    encodeB .utf8 (decodeB .gbk (encodeB .gbk fixtureText).1).1 =
      encodeB .utf8 fixtureText := by decide

/-- Claim C6: decoding a buffer that ends in a truncated UTF-8 multi-byte
sequence — a valid UTF-8 encoding followed by the lone lead byte E4 —
terminates and produces exactly one U+FFFD substitution for that maximal
invalid subsequence. -/
theorem truncated_utf8_single_substitution (T : List Nat)
    (h : ∀ c ∈ T, ValidScalar c) :
    decodeUtf8 ((encodeUtf8 T).1 ++ [0xE4]) = (T ++ [0xFFFD], 1) := by
  have hrt := roundtrip_text decodeUtf8 (fun c => (utf8Bytes c, 0)) ValidScalar
    (fun c bs hc => utf8_step c hc bs) T [0xE4] h
  have he4 : decodeUtf8 [0xE4] = ([0xFFFD], 1) := by
    rw [decodeUtf8.eq_def]
    norm_num
  rw [show encodeUtf8 T = encodeWith (fun c => (utf8Bytes c, 0)) T from rfl, hrt, he4]

/-- Witness for C6 at the text consisting of the single scalar 测. -/
theorem truncated_utf8_single_substitution_witness :
    (∀ c ∈ [0x6D4B], ValidScalar c) ∧
      decodeUtf8 ((encodeUtf8 [0x6D4B]).1 ++ [0xE4]) = ([0x6D4B, 0xFFFD], 1) :=
  ⟨by decide, truncated_utf8_single_substitution [0x6D4B] (by decide)⟩


/-- The ASCII text Hello as canonical text. -/
def helloText : List Nat := [0x48, 0x65, 0x6C, 0x6C, 0x6F]

/-- Claim C4: detect on any buffer starting with the UTF-8 BOM EF BB BF
returns UTF8 with high confidence and the BOM bytes are excluded from the
decoded text; detect on FF FE followed by the UTF-16LE encoding of Hello
returns UTF16LE with high confidence, and on FE FF followed by the
big-endian bytes returns UTF16BE with high confidence. -/
theorem detect_bom_cases :
    (∀ bs : List Nat, detect (0xEF :: 0xBB :: 0xBF :: bs) = (.UTF8, .high)) ∧
    (∀ (eng : Engine) (bs : List Nat),
      decodeDetected eng (0xEF :: 0xBB :: 0xBF :: bs) = decodeB .utf8 bs) ∧
    detect (0xFF :: 0xFE :: (encodeB .utf16le helloText).1) = (.UTF16LE, .high) ∧
    detect (0xFE :: 0xFF :: (encodeB .utf16be helloText).1) = (.UTF16BE, .high) :=
  ⟨fun _ => rfl, fun _ _ => rfl, rfl, rfl⟩

/-- Claim C7: convert on a zero-length input buffer short-circuits from the
Sniffing state straight to the EmptyInput error: the trace never reaches
the Decoding or Encoding states and no output is produced. -/
theorem empty_input_short_circuit (eng : Engine) (req : ConversionRequest)
    (h : req.source = []) :
    convertTrace eng req = ([.Sniffing], .error .EmptyInput) ∧
      PState.Decoding ∉ (convertTrace eng req).1 ∧
      PState.Encoding ∉ (convertTrace eng req).1 := by
  have heq : convertTrace eng req = ([.Sniffing], .error .EmptyInput) := by
    unfold convertTrace
    rw [if_pos h]
  refine ⟨heq, ?_, ?_⟩ <;> rw [heq] <;> simp

/-- Witness for C7 at the empty request. -/
theorem empty_input_short_circuit_witness :
    (([] : List Nat) = []) ∧
      convertTrace ⟨.gbk⟩ ⟨[], none, .UTF8, .omit⟩ = ([.Sniffing], .error .EmptyInput) :=
  ⟨rfl, (empty_input_short_circuit ⟨.gbk⟩ ⟨[], none, .UTF8, .omit⟩ rfl).1⟩

/-- Claim C8: under the include-if-conventional BOM policy the UTF-16LE and
UTF-16BE encoders prepend their conventional 2-byte BOM, while the UTF-8
encoder never prepends its 3-byte BOM under any available policy (never by
default; the spec reserves it for an explicit request). -/
theorem bom_policy_insertion :
    (∀ T : List Nat, encodeWithBom .utf16le .includeIfConventional T =
      (0xFF :: 0xFE :: (encodeB .utf16le T).1, (encodeB .utf16le T).2)) ∧
    (∀ T : List Nat, encodeWithBom .utf16be .includeIfConventional T =
      (0xFE :: 0xFF :: (encodeB .utf16be T).1, (encodeB .utf16be T).2)) ∧
    (∀ (T : List Nat) (p : BomPolicy),
      (encodeWithBom .utf8 p T).1 = (encodeB .utf8 T).1) := by
  refine ⟨fun T => rfl, fun T => rfl, fun T p => ?_⟩
  cases p <;> rfl



lemma ascii_encode_id (E : BaseEnc)
    (hE : E = .utf8 ∨ E = .gbk ∨ E = .gb2312) :
    ∀ T : List Nat, (∀ c ∈ T, c < 0x80) → encodeB E T = (T, 0) := by
  intro T
  induction T with
  | nil =>
    intro _
    rw [encodeB_eq_encodeWith]
    rfl
  | cons c T ih =>
    intro h
    have hc : c < 0x80 := h c (by simp)
    have hbytes : encChar E c = ([c], 0) := by
      rcases hE with rfl | rfl | rfl
      · simp [encChar, utf8Bytes, if_pos hc]
      · simp [encChar, if_pos hc]
      · simp [encChar, if_pos hc]
    have ihres := ih (fun d hd => h d (by simp [hd]))
    rw [encodeB_eq_encodeWith] at ihres ⊢
    simp only [encodeWith, hbytes, ihres]
    simp

/-- Counterexample to C9 as stated: when LOCAL resolves to UTF-16LE (a
member of the supported family), the single ASCII character A encodes to
two bytes under the local encoding, not to the identical one-byte buffer
produced by UTF-8 and GBK. -/
theorem ascii_local_counterexample :
    (∀ c ∈ [0x41], c < 0x80) ∧
      encodeB .utf8 [0x41] = ([0x41], 0) ∧
      encodeB .gbk [0x41] = ([0x41], 0) ∧
      encodeB (resolve ⟨.utf16le⟩ .LOCAL) [0x41] ≠ ([0x41], 0) := by decide

/-- Claim C9 (amended): for every text of ASCII scalar values, encoding to
UTF-8, to GBK, and to the resolved local encoding — provided LOCAL
resolves to UTF-8 or a GBK-family encoding, as in the fixtures — produces
the identical byte buffer of one byte per character with zero
unrepresentable count. -/
theorem ascii_uniform_encoding (T : List Nat) (eng : Engine)
    (h : ∀ c ∈ T, c < 0x80)
    (hl : eng.localEnc = .utf8 ∨ eng.localEnc = .gbk ∨ eng.localEnc = .gb2312) :
    encodeB .utf8 T = (T, 0) ∧ encodeB .gbk T = (T, 0) ∧
      encodeB (resolve eng .LOCAL) T = (T, 0) :=
  ⟨ascii_encode_id .utf8 (Or.inl rfl) T h,
   ascii_encode_id .gbk (Or.inr (Or.inl rfl)) T h,
   ascii_encode_id eng.localEnc hl T h⟩

/-- Witness for C9 at the ASCII text Hi under a GBK local encoding. -/
theorem ascii_uniform_encoding_witness :
    (∀ c ∈ [0x48, 0x69], c < 0x80) ∧
      (encodeB .utf8 [0x48, 0x69] = ([0x48, 0x69], 0) ∧
        encodeB .gbk [0x48, 0x69] = ([0x48, 0x69], 0) ∧
        encodeB (resolve ⟨.gbk⟩ .LOCAL) [0x48, 0x69] = ([0x48, 0x69], 0)) :=
  ⟨by decide,
   ascii_uniform_encoding [0x48, 0x69] ⟨.gbk⟩ (by decide) (Or.inr (Or.inl rfl))⟩

/-- Modelled from the spec: a byte buffer lies in the shared
GB2312-compatible range when every single byte is ASCII and every
two-byte sequence has its lead in A1..F7 and its trail in A1..FE, the
GB2312 lead/trail ranges shared by GBK. -/
def gb2312CompatibleStream : List Nat → Bool
  | [] => true
  | b :: rest =>
    if b < 0x80 then gb2312CompatibleStream rest
    else
      match rest with
      | [] => false
      | t :: rest2 =>
        (0xA1 ≤ b && b ≤ 0xF7 && 0xA1 ≤ t && t ≤ 0xFE) &&
          gb2312CompatibleStream rest2

lemma tableDecode_agree (l t : Nat) (_hl1 : 0xA1 ≤ l) (_hl2 : l ≤ 0xF7)
    (ht1 : 0xA1 ≤ t) (ht2 : t ≤ 0xFE) :
    tableDecode gbkTable l t = tableDecode gb2312Table l t := by
  unfold tableDecode gbkTable
  rw [List.find?_append]
  rcases hf : gb2312Table.find? (fun e => e.lead = l && e.trail = t) with _ | e
  · have hne : ¬((0x46 : Nat) = t) := by omega
    simp [List.find?_cons, hne]
  · simp [hf]

set_option maxRecDepth 2000 in
lemma decode_gbk_gb2312_agree (bs : List Nat) :
    gb2312CompatibleStream bs = true →
    decodeGbkWith gbkTable bs = decodeGbkWith gb2312Table bs := by
  rcases bs with _ | ⟨b, rest⟩
  · intro _
    rfl
  · intro hcp
    rw [gb2312CompatibleStream.eq_def] at hcp
    simp only [] at hcp
    by_cases hA : b < 0x80
    · rw [if_pos hA] at hcp
      conv_lhs => rw [decodeGbkWith.eq_def]
      conv_rhs => rw [decodeGbkWith.eq_def]
      simp only []
      rw [if_pos hA, if_pos hA, decode_gbk_gb2312_agree rest hcp]
    · rw [if_neg hA] at hcp
      rcases rest with _ | ⟨t, rest2⟩
      · simp at hcp
      · simp only [Bool.and_eq_true, decide_eq_true_eq] at hcp
        obtain ⟨⟨⟨⟨hl1, hl2⟩, ht1⟩, ht2⟩, hrest⟩ := hcp
        conv_lhs => rw [decodeGbkWith.eq_def]
        conv_rhs => rw [decodeGbkWith.eq_def]
        simp only []
        rw [if_neg hA, if_neg hA, tableDecode_agree b t hl1 hl2 ht1 ht2]
        rcases hd : tableDecode gb2312Table b t with _ | c0
        · rw [decode_gbk_gb2312_agree rest2 hrest]
        · rw [decode_gbk_gb2312_agree rest2 hrest]
termination_by bs.length
decreasing_by all_goals (simp_wf; try omega)


/-- Claim C10: on any byte buffer whose two-byte sequences all fall in the
shared GB2312-compatible range, decoding with EncodingId GBK and decoding
with EncodingId LOCAL — when LOCAL resolves to a GBK-compatible encoding
(GBK or GB2312) — yield the same canonical text and the same substitution
count. -/
theorem gbk_local_decode_agreement (bs : List Nat) (eng : Engine)
    (h1 : gb2312CompatibleStream bs = true)
    (h2 : eng.localEnc = .gbk ∨ eng.localEnc = .gb2312) :
    decodeB (resolve eng .GBK) bs = decodeB (resolve eng .LOCAL) bs := by
  rcases h2 with hl | hl
  · rw [show resolve eng .LOCAL = eng.localEnc from rfl, hl]
    rfl
  · rw [show resolve eng .LOCAL = eng.localEnc from rfl, hl]
    exact decode_gbk_gb2312_agree bs h1

/-- Witness for C10 at the buffer 41 B2 E2 under a GB2312 local encoding. -/
theorem gbk_local_decode_agreement_witness :
    gb2312CompatibleStream [0x41, 0xB2, 0xE2] = true ∧
      decodeB (resolve ⟨.gb2312⟩ .GBK) [0x41, 0xB2, 0xE2] =
        decodeB (resolve ⟨.gb2312⟩ .LOCAL) [0x41, 0xB2, 0xE2] :=
  ⟨by decide,
   gbk_local_decode_agreement [0x41, 0xB2, 0xE2] ⟨.gb2312⟩ (by decide)
     (Or.inr rfl)⟩

end UniConv
